import Mathlib

/-!
# Verification of the ProtoToArgsParser / FlowTracker excerpt

Shallow embedding, in Lean 4, of the two source files of the repository:

* `src/trace_processor/importers/common/flow_tracker.cc` — the event
  correlation tracker (`FlowTracker`).  Its method bodies are present in
  the source and are embedded faithfully below.
* `src/trace_processor/util/proto_to_args_parser.h` — the reflection
  driven proto decoder (`ProtoToArgsParser`).  Only the declarations are
  in the source; the definition bodies are modelled from the
  specification (sections 4.1–4.5, 7 and 8 of `spec.md`).

Strings are modelled as `List Char`, maps (`std::unordered_map`,
`std::map`) as association lists with first-match lookup, ids
(`FlowId = uint64_t`, `TrackId`, `SliceId`, `StringId`) as `Nat`
(no claim exercises overflow of a 64/32-bit counter).
-/

namespace Spec2Proof

/-- First-match lookup in an association list (models `find` /
`count`-then-`operator[]` reads on `std::unordered_map`). -/
def lookupA {α β : Type} [DecidableEq α] : List (α × β) → α → Option β
  | [], _ => none
  | (k, v) :: rest, q => if k = q then some v else lookupA rest q

/-! ## FlowTracker (`flow_tracker.cc`) -/

/-- `FlowTracker::V1FlowId`: the key `{source_id, cat, name}` used to
intern v1 flow ids. -/
structure V1FlowId where
  source_id : Nat
  cat : Nat
  name : Nat
deriving DecidableEq, Repr

/-- The mutable state of a `FlowTracker` together with the storage it
writes to: the two id maps, the pending-flow map, the v1 id counter, the
flow table rows (pairs `(slice_out, slice_in)` in insertion order) and
the four stats counters it increments. -/
structure FlowState where
  flow_to_slice_map : List (Nat × Nat) := []
  pending_flow_ids_map : List (Nat × List Nat) := []
  v1_flow_id_to_flow_id_map : List (V1FlowId × Nat) := []
  v1_id_counter : Nat := 0
  flow_table : List (Nat × Nat) := []
  stats_flow_no_enclosing_slice : Nat := 0
  stats_flow_duplicate_id : Nat := 0
  stats_flow_step_without_start : Nat := 0
  stats_flow_end_without_start : Nat := 0
deriving DecidableEq, Repr

/-- `FlowTracker::InsertFlow`: append one row to the flow table. -/
def InsertFlow (s : FlowState) (slice_out_id slice_in_id : Nat) : FlowState :=
  { s with flow_table := s.flow_table ++ [(slice_out_id, slice_in_id)] }

/-- `FlowTracker::Begin`.  `topmost` stands for
`context_->slice_tracker->GetTopmostSliceOnTrack`. -/
def FlowBegin (topmost : Nat → Option Nat) (s : FlowState)
    (track_id flow_id : Nat) : FlowState :=
  match topmost track_id with
  | none =>
      { s with stats_flow_no_enclosing_slice :=
          s.stats_flow_no_enclosing_slice + 1 }
  | some open_slice_id =>
      if lookupA s.flow_to_slice_map flow_id ≠ none then
        { s with stats_flow_duplicate_id := s.stats_flow_duplicate_id + 1 }
      else
        { s with flow_to_slice_map :=
            (flow_id, open_slice_id) :: s.flow_to_slice_map }

/-- `FlowTracker::Step`. -/
def FlowStep (topmost : Nat → Option Nat) (s : FlowState)
    (track_id flow_id : Nat) : FlowState :=
  match topmost track_id with
  | none =>
      { s with stats_flow_no_enclosing_slice :=
          s.stats_flow_no_enclosing_slice + 1 }
  | some open_slice_id =>
      match lookupA s.flow_to_slice_map flow_id with
      | none =>
          { s with stats_flow_step_without_start :=
              s.stats_flow_step_without_start + 1 }
      | some slice_out_id =>
          let s := InsertFlow s slice_out_id open_slice_id
          { s with flow_to_slice_map :=
              (flow_id, open_slice_id) :: s.flow_to_slice_map }

/-- Erase every binding of a key from an association list
(`std::unordered_map::erase`). -/
def eraseA {α β : Type} [DecidableEq α] (l : List (α × β)) (k : α) :
    List (α × β) :=
  l.filter (fun p => p.1 ≠ k)

/-- `FlowTracker::End`. -/
def FlowEnd (topmost : Nat → Option Nat) (s : FlowState)
    (track_id flow_id : Nat) (bind_enclosing_slice : Bool) : FlowState :=
  if !bind_enclosing_slice then
    { s with pending_flow_ids_map :=
        (track_id,
          (lookupA s.pending_flow_ids_map track_id).getD [] ++ [flow_id]) ::
          eraseA s.pending_flow_ids_map track_id }
  else
    match topmost track_id with
    | none =>
        { s with stats_flow_no_enclosing_slice :=
            s.stats_flow_no_enclosing_slice + 1 }
    | some open_slice_id =>
        match lookupA s.flow_to_slice_map flow_id with
        | none =>
            { s with stats_flow_end_without_start :=
                s.stats_flow_end_without_start + 1 }
        | some slice_out_id =>
            let s := InsertFlow s slice_out_id open_slice_id
            { s with flow_to_slice_map := eraseA s.flow_to_slice_map flow_id }

/-- `FlowTracker::GetFlowIdForV1Event`: intern a `{source_id, cat, name}`
triple, drawing a fresh id from `v1_id_counter_` on first sight. -/
def GetFlowIdForV1Event (s : FlowState) (t : V1FlowId) : Nat × FlowState :=
  match lookupA s.v1_flow_id_to_flow_id_map t with
  | some id => (id, s)
  | none =>
      (s.v1_id_counter,
        { s with
          v1_flow_id_to_flow_id_map :=
            (t, s.v1_id_counter) :: s.v1_flow_id_to_flow_id_map,
          v1_id_counter := s.v1_id_counter + 1 })

/-- `flow_to_slice_map_[flow_id]` as used in `ClosePendingEventsOnTrack`:
`std::unordered_map::operator[]` returns the mapped value, value
initialising (`SliceId()`, i.e. id value `0`) and inserting it first when
the key is absent. -/
def mapBracket (m : List (Nat × Nat)) (k : Nat) : Nat × List (Nat × Nat) :=
  match lookupA m k with
  | some v => (v, m)
  | none => (0, (k, 0) :: m)

/-- The loop body of `FlowTracker::ClosePendingEventsOnTrack`: one
iteration reads (and possibly default-inserts) `flow_to_slice_map_[flow_id]`
and inserts one flow row ending at `slice_id`. -/
def closeStep (slice_id : Nat) (s : FlowState) (flow_id : Nat) : FlowState :=
  let r := mapBracket s.flow_to_slice_map flow_id
  let s := { s with flow_to_slice_map := r.2 }
  InsertFlow s r.1 slice_id

/-- `FlowTracker::ClosePendingEventsOnTrack`. -/
def ClosePendingEventsOnTrack (s : FlowState) (track_id slice_id : Nat) :
    FlowState :=
  match lookupA s.pending_flow_ids_map track_id with
  | none => s
  | some flow_ids =>
      let s := flow_ids.foldl (closeStep slice_id) s
      { s with pending_flow_ids_map := eraseA s.pending_flow_ids_map track_id }

/-- Relation between the original `flow_to_slice_map_` and the map after
some `operator[]` reads: every key is either untouched or was absent and
got the default-constructed slice id `0` inserted. -/
def Rmap (m₀ m : List (Nat × Nat)) : Prop :=
  ∀ x, lookupA m x = lookupA m₀ x ∨
    (lookupA m₀ x = none ∧ lookupA m x = some 0)

/-- Invariant maintained by `GetFlowIdForV1Event`: every interned id is
below the counter, and distinct triples hold distinct ids. -/
def WfV1 (s : FlowState) : Prop :=
  (∀ t id, lookupA s.v1_flow_id_to_flow_id_map t = some id →
      id < s.v1_id_counter) ∧
  (∀ t₁ t₂ id₁ id₂, lookupA s.v1_flow_id_to_flow_id_map t₁ = some id₁ →
      lookupA s.v1_flow_id_to_flow_id_map t₂ = some id₂ → t₁ ≠ t₂ →
      id₁ ≠ id₂)

/-! ## ProtoToArgsParser (`proto_to_args_parser.h`)

The header declares `ParseMessage`, `ParseField`, `MaybeApplyOverride`,
`ParseSimpleField`, `EnterDictionary`, `EnterArray` and
`ScopedNestedKeyContext`, but their definition bodies are not part of the
source excerpt.  The definitions below are modelled from the spec
(sections 4.1–4.5, 7, 8): raw wire data is a list of present fields in
encounter order, each a field number with a payload that is a varint, a
length-delimited string, or a submessage; the schema registry maps type
names to field descriptor lists and enum type names to value/name
tables.  Floating-point kinds are not modelled. -/

/-- Raw payload of one wire-format field.  A field is `(number, payload)`;
a message's bytes are its fields in encounter order. -/
inductive RawValue where
  | vint (n : Int)
  | vstr (s : List Char)
  | vmsg (fields : List (Nat × RawValue))

/-- Wire category of a schema field (`FieldSchemaEntry`'s kind). -/
inductive FieldKind where
  | kint
  | kuint
  | kbool
  | kstring
  | kbytes
  | kenum (enum_type : List Char)
  | kmsg (type_name : List Char)
deriving DecidableEq, Repr

/-- One schema entry: field number, name, wire kind, repeated flag. -/
structure FieldDescriptor where
  number : Nat
  name : List Char
  kind : FieldKind
  repeated : Bool
deriving DecidableEq, Repr

/-- The schema registry (`DescriptorPool`): message type name → field
descriptors, and enum type name → (numeric value, symbolic name) table. -/
structure DescriptorPool where
  messages : List (List Char × List FieldDescriptor)
  enums : List (List Char × List (Int × List Char))

/-- Resolve a field number against a message descriptor. -/
def findField (desc : List FieldDescriptor) (num : Nat) :
    Option FieldDescriptor :=
  desc.find? (fun fd => fd.number = num)

/-- `ProtoToArgsParser::Key`: the flat (index-free) path and the full
indexed path of the value currently being emitted. -/
structure Key where
  flat_key : List Char
  key : List Char
deriving DecidableEq, Repr

/-- A value emitted to the delegate (sink). -/
inductive Value where
  | vInt (n : Int)
  | vUint (n : Int)
  | vString (s : List Char)
  | vBool (b : Bool)
deriving DecidableEq, Repr

/-- `base::Status`: success or a failure with a description. -/
inductive PStatus where
  | ok
  | err (msg : List Char)
deriving DecidableEq, Repr

/-- The observable state of a `Delegate` (sink): the sequence of emitted
key/value pairs and the per-flat-key next-array-index table. -/
structure Deleg where
  emissions : List (Key × Value)
  array_indices : List (List Char × Nat)
deriving DecidableEq, Repr

/-- Append one emission to the sink. -/
def emit (d : Deleg) (k : Key) (v : Value) : Deleg :=
  { d with emissions := d.emissions ++ [(k, v)] }

/-- `Delegate::GetArrayEntryIndex`: next index for a repeated field,
keyed by flat key, `0` when never seen. -/
def GetArrayEntryIndex (d : Deleg) (array_key : List Char) : Nat :=
  (lookupA d.array_indices array_key).getD 0

/-- `Delegate::IncrementArrayEntryIndex`. -/
def IncrementArrayEntryIndex (d : Deleg) (array_key : List Char) : Deleg :=
  { d with array_indices :=
      (array_key, GetArrayEntryIndex d array_key + 1) :: d.array_indices }

/-- Append a path segment: bare at depth 0, dot-separated below. -/
def appendSep (s name : List Char) : List Char :=
  if s = [] then name else s ++ '.' :: name

/-- Modelled from the spec: `enter_dictionary(name)` appends `.<name>`
(bare `<name>` at depth 0) to both `flat_key` and `key`. -/
def enterDictionaryKey (k : Key) (name : List Char) : Key :=
  { flat_key := appendSep k.flat_key name, key := appendSep k.key name }

/-- Modelled from the spec: `enter_array(index)` appends `[<index>]` to
`key` only, leaving `flat_key` unchanged. -/
def enterArrayKey (k : Key) (i : Nat) : Key :=
  { k with key := k.key ++ '[' :: Nat.toDigits 10 i ++ [']'] }

/-- `ProtoToArgsParser::ScopedNestedKeyContext`: the guard remembers the
pre-entry lengths of both strings. -/
structure ScopedNestedKeyContext where
  old_flat_key_length : Nat
  old_key_length : Nat
deriving DecidableEq, Repr

/-- `ProtoToArgsParser::EnterDictionary`: extend the key and return the
guard holding the pre-entry lengths. -/
def EnterDictionary (k : Key) (name : List Char) :
    Key × ScopedNestedKeyContext :=
  (enterDictionaryKey k name, ⟨k.flat_key.length, k.key.length⟩)

/-- `ProtoToArgsParser::EnterArray`. -/
def EnterArray (k : Key) (i : Nat) : Key × ScopedNestedKeyContext :=
  (enterArrayKey k i, ⟨k.flat_key.length, k.key.length⟩)

/-- `ScopedNestedKeyContext::Reset` (also run by the destructor):
truncate both strings back to the remembered pre-entry lengths. -/
def ScopedNestedKeyContext.Reset (c : ScopedNestedKeyContext) (k : Key) :
    Key :=
  { flat_key := k.flat_key.take c.old_flat_key_length,
    key := k.key.take c.old_key_length }

/-- `ProtoToArgsParser::ParsingOverride`: an interceptor receives the raw
field and the delegate.  Through the `Delegate` interface an override
can only read the per-array index state (`GetArrayEntryIndex`) and push
values (the `Add*` methods are write-only), so it is modelled as a
function of the raw field and the array-index table returning the
emissions it pushed, together with `none` (handled, skip default
decoding) or `some status` (continue default decoding, or short-circuit
the parse on an error status). -/
def ParsingOverride : Type :=
  (Nat × RawValue) → List (List Char × Nat) → List (Key × Value) × Option PStatus

/-- `ProtoToArgsParser`: descriptor pool plus the override registry
(`AddParsingOverride` installs one interceptor per full dotted path). -/
structure ProtoToArgsParser where
  pool : DescriptorPool
  overrides : List (List Char × ParsingOverride)

/-- Failure message for the unsupported bytes kind. -/
def bytesUnsupportedMsg : List Char :=
  "bytes fields are currently unsupported".toList

/-- Failure message for a payload that does not match the schema kind. -/
def malformedMsg : List Char := "malformed wire encoding of a field".toList

/-- Failure message for an unknown top-level or nested type name. -/
def unknownTypeMsg : List Char := "unknown proto type".toList

/-- `ProtoToArgsParser::MaybeApplyOverride`, modelled from the spec: look
up the current flat (index-free) dotted path in the override registry;
when found, run the interceptor and append its emissions.  `none` means
the field was handled; `some status` means default decoding continues
(or the failure aborts the parse). -/
def MaybeApplyOverride (P : ProtoToArgsParser) (flat : List Char)
    (field : Nat × RawValue) (d : Deleg) : Deleg × Option PStatus :=
  match lookupA P.overrides flat with
  | none => (d, some .ok)
  | some ov =>
      let r := ov field d.array_indices
      ({ d with emissions := d.emissions ++ r.1 }, r.2)

/-- `ProtoToArgsParser::ParseSimpleField`, modelled from the spec: scalar
kind dispatch.  Integers emit signed, unsigned kinds emit unsigned,
booleans emit booleans, strings emit borrowed character spans, bytes
fields fail with a descriptive message, enums resolve to their symbolic
name or degrade to the raw number. -/
def ParseSimpleField (pool : DescriptorPool) (k : Key) (kind : FieldKind)
    (v : RawValue) (d : Deleg) : Deleg × PStatus :=
  match kind, v with
  | .kint, .vint n => (emit d k (.vInt n), .ok)
  | .kuint, .vint n => (emit d k (.vUint n), .ok)
  | .kbool, .vint n => (emit d k (.vBool (n != 0)), .ok)
  | .kstring, .vstr s => (emit d k (.vString s), .ok)
  | .kbytes, _ => (d, .err bytesUnsupportedMsg)
  | .kenum ty, .vint n =>
      match lookupA pool.enums ty with
      | none => (emit d k (.vInt n), .ok)
      | some entries =>
          match lookupA entries n with
          | some nm => (emit d k (.vString nm), .ok)
          | none => (emit d k (.vInt n), .ok)
  | _, _ => (d, .err malformedMsg)

mutual

/-- `ProtoToArgsParser::ParseMessage`, modelled from the spec (4.4):
resolve the type name (unknown name is a fatal failure), then walk every
present field in encounter order. -/
def ParseMessage (P : ProtoToArgsParser) (k : Key)
    (fields : List (Nat × RawValue)) (type : List Char)
    (allowed : List Nat) (d : Deleg) : Deleg × PStatus :=
  match lookupA P.pool.messages type with
  | none => (d, .err unknownTypeMsg)
  | some desc => ParseFields P k desc fields allowed d
termination_by (sizeOf fields, 3)
decreasing_by all_goals omega

/-- The message walker loop, modelled from the spec (4.4): skip fields
outside a non-empty allow-list and fields with no schema entry silently;
dispatch the rest to `ParseField`, stopping at the first failure. -/
def ParseFields (P : ProtoToArgsParser) (k : Key)
    (desc : List FieldDescriptor) :
    List (Nat × RawValue) → List Nat → Deleg → Deleg × PStatus
  | [], _, d => (d, .ok)
  | f :: rest, allowed, d =>
      if allowed ≠ [] ∧ f.1 ∉ allowed then
        ParseFields P k desc rest allowed d
      else
        match findField desc f.1 with
        | none => ParseFields P k desc rest allowed d
        | some fd =>
            match ParseField P k fd f d with
            | (d', .ok) => ParseFields P k desc rest allowed d'
            | (d', .err e) => (d', .err e)
termination_by l _ _ => (sizeOf l, 2)
decreasing_by all_goals first | omega | (simp_wf; omega)

/-- `ProtoToArgsParser::ParseField`, modelled from the spec (4.3): enter
the dictionary context for the field name; for a repeated field obtain
and advance the per-flat-key array index and enter the array context;
consult the override registry; on "continue" dispatch on the kind. -/
def ParseField (P : ProtoToArgsParser) (k : Key) (fd : FieldDescriptor)
    (f : Nat × RawValue) (d : Deleg) : Deleg × PStatus :=
  let k1 := enterDictionaryKey k fd.name
  let kd : Key × Deleg :=
    if fd.repeated then
      (enterArrayKey k1 (GetArrayEntryIndex d k1.flat_key),
        IncrementArrayEntryIndex d k1.flat_key)
    else (k1, d)
  match MaybeApplyOverride P k1.flat_key f kd.2 with
  | (d', none) => (d', .ok)
  | (d', some (.err e)) => (d', .err e)
  | (d', some .ok) => ParseFieldKind P kd.1 fd.kind f.2 d'
termination_by (sizeOf f, 1)
decreasing_by all_goals (cases f; first | omega | (simp_wf; omega))

/-- Kind dispatch after the override check: message-typed fields recurse
into the walker with the extended key path (spec 4.3 step 3); all other
kinds go to `ParseSimpleField`. -/
def ParseFieldKind (P : ProtoToArgsParser) (k : Key) (kind : FieldKind)
    (v : RawValue) (d : Deleg) : Deleg × PStatus :=
  match kind, v with
  | .kmsg ty, .vmsg fs => ParseMessage P k fs ty [] d
  | .kmsg _, .vint _ => (d, .err malformedMsg)
  | .kmsg _, .vstr _ => (d, .err malformedMsg)
  | .kint, v => ParseSimpleField P.pool k .kint v d
  | .kuint, v => ParseSimpleField P.pool k .kuint v d
  | .kbool, v => ParseSimpleField P.pool k .kbool v d
  | .kstring, v => ParseSimpleField P.pool k .kstring v d
  | .kbytes, v => ParseSimpleField P.pool k .kbytes v d
  | .kenum ty, v => ParseSimpleField P.pool k (.kenum ty) v d
termination_by (sizeOf v, 0)
decreasing_by all_goals first | omega | (simp_wf; omega)

end

/-! ### Concrete fixtures used by the witness theorems -/

/-- A slice tracker with slice `5` open on every track. -/
def topC : Nat → Option Nat := fun _ => some 5

/-- A flow tracker state with flow `1` bound to slice `2`. -/
def sC7 : FlowState := { flow_to_slice_map := [(1, 2)] }

/-- A flow tracker state with flow `3` bound to slice `9` and flows
`3, 4` pending on track `7`. -/
def sC10 : FlowState :=
  { flow_to_slice_map := [(3, 9)], pending_flow_ids_map := [(7, [3, 4])] }

/-- The emissions of a repeated scalar field `name` under prefix `k`
holding the given values, starting at array index `i`: element `j` gets
`key = <prefix.>name[i + j]` and `flat_key = <prefix.>name`. -/
def repEmissions (k : Key) (name : List Char) :
    Nat → List Int → List (Key × Value)
  | _, [] => []
  | i, v :: vs =>
      (enterArrayKey (enterDictionaryKey k name) i, Value.vInt v)
        :: repEmissions k name (i + 1) vs

/-- Schema with scalar field `a = 1`, bytes field `b = 2`, scalar field
`c = 3`. -/
def descABC : List FieldDescriptor :=
  [⟨1, ['a'], .kint, false⟩, ⟨2, ['b'], .kbytes, false⟩,
   ⟨3, ['c'], .kint, false⟩]

/-- Pool with the single message type `M` described by `descABC`. -/
def poolABC : DescriptorPool := { messages := [(['M'], descABC)], enums := [] }

/-- Parser over `poolABC` with no overrides installed. -/
def parserABC : ProtoToArgsParser := { pool := poolABC, overrides := [] }

/-- Schema with two plain scalar fields `a = 1`, `b = 2`. -/
def descAB : List FieldDescriptor :=
  [⟨1, ['a'], .kint, false⟩, ⟨2, ['b'], .kint, false⟩]

/-- Pool with the single message type `N` described by `descAB`. -/
def poolAB : DescriptorPool := { messages := [(['N'], descAB)], enums := [] }

/-- Parser over `poolAB` with no overrides installed. -/
def parserAB : ProtoToArgsParser := { pool := poolAB, overrides := [] }

/-- Schema with one repeated scalar field `x = 1`. -/
def descX : List FieldDescriptor := [⟨1, ['x'], .kint, true⟩]

/-- Pool with the single message type `R` described by `descX`. -/
def poolX : DescriptorPool := { messages := [(['R'], descX)], enums := [] }

/-- Parser over `poolX` with no overrides installed. -/
def parserX : ProtoToArgsParser := { pool := poolX, overrides := [] }

/-- The delegate state after the context-entry step of `ParseField`
(spec 4.3 step 1): for a repeated field the per-flat-key array index has
been advanced, otherwise the state is untouched. -/
def fieldDeleg (fd : FieldDescriptor) (k : Key) (d : Deleg) : Deleg :=
  if fd.repeated = true then
    IncrementArrayEntryIndex d (enterDictionaryKey k fd.name).flat_key
  else d

/-- The key after the context-entry step of `ParseField`: the dictionary
context for the field name, plus the array context for a repeated
field. -/
def fieldKey (fd : FieldDescriptor) (k : Key) (d : Deleg) : Key :=
  if fd.repeated = true then
    enterArrayKey (enterDictionaryKey k fd.name)
      (GetArrayEntryIndex d (enterDictionaryKey k fd.name).flat_key)
  else enterDictionaryKey k fd.name

/-- A decoding step `g` behaves, from state `d`, as "append a fixed
emission sequence and a fixed final array-index table, with a fixed
status", uniformly over every start state with the same array-index
table: the step's output is a function of its inputs and the sink's
array-index state only. -/
def DeltaP (g : Deleg → Deleg × PStatus) (d : Deleg) : Prop :=
  ∀ d₂ : Deleg, d₂.array_indices = d.array_indices → ∃ t,
    (g d).1.emissions = d.emissions ++ t
    ∧ g d₂ = ({ emissions := d₂.emissions ++ t,
                array_indices := (g d).1.array_indices }, (g d).2)

/-- An interceptor that handles its field entirely, emitting one
synthetic value. -/
def ovHandled : ParsingOverride :=
  fun _ _ => ([(⟨['o'], ['o']⟩, .vInt 42)], none)

/-- Parser over `poolABC` with `ovHandled` installed on path `a`. -/
def parserOv : ProtoToArgsParser :=
  { pool := poolABC, overrides := [(['a'], ovHandled)] }

/-! ## Theorems -/

theorem lookupA_eraseA {α β : Type} [DecidableEq α] (l : List (α × β))
    (k : α) : lookupA (eraseA l k) k = none := by
  induction l with
  | nil => rfl
  | cons p rest ih =>
      obtain ⟨a, b⟩ := p
      by_cases h : a = k
      · simpa [eraseA, h] using ih
      · simpa [eraseA, lookupA, h] using ih

theorem mapBracket_of_Rmap {m₀ m : List (Nat × Nat)} (h : Rmap m₀ m)
    (f : Nat) :
    (mapBracket m f).1 = (lookupA m₀ f).getD 0
    ∧ Rmap m₀ (mapBracket m f).2
    ∧ lookupA (mapBracket m f).2 f = some ((lookupA m₀ f).getD 0) := by
  cases hf : lookupA m f with
  | some v =>
      rcases h f with h' | ⟨h₀, h'⟩
      · rw [hf] at h'
        simp [mapBracket, hf, ← h', h]
      · rw [hf] at h'
        cases h'
        simp [mapBracket, hf, h₀, h]
  | none =>
      have h₀ : lookupA m₀ f = none := by
        rcases h f with h' | ⟨h₀, _⟩
        · rw [← h', hf]
        · exact h₀
      refine ⟨by simp [mapBracket, hf, h₀], ?_, by simp [mapBracket, hf, h₀, lookupA]⟩
      intro x
      by_cases hx : x = f
      · subst hx
        exact Or.inr ⟨h₀, by simp [mapBracket, hf, lookupA]⟩
      · have : lookupA (mapBracket m f).2 x = lookupA m x := by
          simp [mapBracket, hf, lookupA, Ne.symm hx]
        rw [this]
        exact h x

theorem lookupA_mapBracket_preserve {m : List (Nat × Nat)} {f g v : Nat}
    (h : lookupA m f = some v) : lookupA (mapBracket m g).2 f = some v := by
  cases hg : lookupA m g with
  | some w => simpa [mapBracket, hg]
  | none =>
      have hne : g ≠ f := by
        rintro rfl
        rw [h] at hg
        cases hg
      simpa [mapBracket, hg, lookupA, hne]

theorem closeStep_fields (slice_id : Nat) (s : FlowState) (f : Nat) :
    (closeStep slice_id s f).flow_table
        = s.flow_table ++ [((mapBracket s.flow_to_slice_map f).1, slice_id)]
    ∧ (closeStep slice_id s f).flow_to_slice_map
        = (mapBracket s.flow_to_slice_map f).2
    ∧ (closeStep slice_id s f).pending_flow_ids_map
        = s.pending_flow_ids_map := by
  refine ⟨rfl, rfl, rfl⟩

theorem closeStep_foldl_preserve (slice_id : Nat) :
    ∀ (l : List Nat) (s : FlowState) (f v : Nat),
      lookupA s.flow_to_slice_map f = some v →
      lookupA (l.foldl (closeStep slice_id) s).flow_to_slice_map f = some v := by
  intro l
  induction l with
  | nil => intro s f v h; simpa
  | cons g rest ih =>
      intro s f v h
      simp only [List.foldl_cons]
      exact ih (closeStep slice_id s g) f v (lookupA_mapBracket_preserve h)

theorem closeStep_foldl_spec (slice_id : Nat) (m₀ : List (Nat × Nat)) :
    ∀ (l : List Nat) (s : FlowState), Rmap m₀ s.flow_to_slice_map →
      (l.foldl (closeStep slice_id) s).flow_table
          = s.flow_table ++ l.map (fun f => ((lookupA m₀ f).getD 0, slice_id))
      ∧ Rmap m₀ (l.foldl (closeStep slice_id) s).flow_to_slice_map
      ∧ (l.foldl (closeStep slice_id) s).pending_flow_ids_map
          = s.pending_flow_ids_map
      ∧ ∀ f, f ∈ l →
          lookupA (l.foldl (closeStep slice_id) s).flow_to_slice_map f
            = some ((lookupA m₀ f).getD 0) := by
  intro l
  induction l with
  | nil =>
      intro s h
      exact ⟨by simp, h, rfl, by simp⟩
  | cons g rest ih =>
      intro s h
      obtain ⟨hv, hR, hg⟩ := mapBracket_of_Rmap h g
      obtain ⟨ht, hm, hp⟩ := closeStep_fields slice_id s g
      have hR' : Rmap m₀ (closeStep slice_id s g).flow_to_slice_map := by
        rw [hm]; exact hR
      obtain ⟨ih1, ih2, ih3, ih4⟩ := ih (closeStep slice_id s g) hR'
      simp only [List.foldl_cons]
      refine ⟨?_, ih2, by rw [ih3, hp], ?_⟩
      · rw [ih1, ht, hv, List.map_cons, List.append_assoc]
        rfl
      · intro x hx
        rcases List.mem_cons.mp hx with rfl | hx'
        · refine closeStep_foldl_preserve slice_id rest _ _ _ ?_
          rw [hm]
          exact hg
        · exact ih4 x hx'

/-- **C10**: when track `track_id` has pending flow ids,
`ClosePendingEventsOnTrack(track_id, slice_id)` inserts exactly one flow
row per pending flow id — each ending at `slice_id` and starting at the
slice bound to the flow id, or at the default-constructed slice id `0`
that the `operator[]` lookup inserts into `flow_to_slice_map_` when the
flow id was never begun — then erases the track's entire pending list,
leaving bindings of properly begun flows in place. -/
theorem ClosePendingEventsOnTrack_spec (s : FlowState)
    (track_id slice_id : Nat) (flows : List Nat)
    (hp : lookupA s.pending_flow_ids_map track_id = some flows) :
    (ClosePendingEventsOnTrack s track_id slice_id).flow_table
      = s.flow_table
        ++ flows.map
            (fun f => ((lookupA s.flow_to_slice_map f).getD 0, slice_id))
    ∧ lookupA
        (ClosePendingEventsOnTrack s track_id slice_id).pending_flow_ids_map
        track_id = none
    ∧ (∀ f v, lookupA s.flow_to_slice_map f = some v →
        lookupA
          (ClosePendingEventsOnTrack s track_id slice_id).flow_to_slice_map f
          = some v)
    ∧ (∀ f, f ∈ flows → lookupA s.flow_to_slice_map f = none →
        lookupA
          (ClosePendingEventsOnTrack s track_id slice_id).flow_to_slice_map f
          = some 0) := by
  have hR : Rmap s.flow_to_slice_map s.flow_to_slice_map :=
    fun x => Or.inl rfl
  obtain ⟨h1, _, h3, h4⟩ :=
    closeStep_foldl_spec slice_id s.flow_to_slice_map flows s hR
  simp only [ClosePendingEventsOnTrack, hp]
  refine ⟨h1, ?_, ?_, ?_⟩
  · rw [h3]
    exact lookupA_eraseA s.pending_flow_ids_map track_id
  · intro f v hv
    exact closeStep_foldl_preserve slice_id flows s f v hv
  · intro f hf hnone
    have := h4 f hf
    rw [hnone] at this
    simpa using this

/-- Witness for `ClosePendingEventsOnTrack_spec`: track `7` has flows
`3` (begun, bound to slice `9`) and `4` (never begun) pending; closing
against slice `5` inserts rows `(9, 5)` and `(0, 5)`. -/
theorem ClosePendingEventsOnTrack_spec_witness :
    lookupA sC10.pending_flow_ids_map 7 = some [3, 4]
    ∧ (ClosePendingEventsOnTrack sC10 7 5).flow_table
        = sC10.flow_table
          ++ [3, 4].map
              (fun f => ((lookupA sC10.flow_to_slice_map f).getD 0, 5)) :=
  ⟨by decide, (ClosePendingEventsOnTrack_spec sC10 7 5 [3, 4] (by decide)).1⟩

/-- **C7**: duplicate and orphan detection and deferred end-binding over
the tracker's tables: `Begin` on an already-bound flow id only
increments the duplicate-id stat (the flow-to-slice map is unchanged);
`Step` and `End(bind_enclosing_slice = true)` on an unknown flow id only
increment the corresponding without-start stat (no flow row is
inserted); `End(bind_enclosing_slice = false)` only appends the flow id
to the track's pending list, and the flow row is inserted later when
`ClosePendingEventsOnTrack` runs for that track. -/
theorem flow_tracker_bookkeeping (topmost : Nat → Option Nat)
    (s : FlowState) (track_id flow_id sl : Nat)
    (hopen : topmost track_id = some sl) :
    (∀ v, lookupA s.flow_to_slice_map flow_id = some v →
        FlowBegin topmost s track_id flow_id
          = { s with stats_flow_duplicate_id :=
                s.stats_flow_duplicate_id + 1 })
    ∧ (lookupA s.flow_to_slice_map flow_id = none →
        FlowStep topmost s track_id flow_id
          = { s with stats_flow_step_without_start :=
                s.stats_flow_step_without_start + 1 })
    ∧ (lookupA s.flow_to_slice_map flow_id = none →
        FlowEnd topmost s track_id flow_id true
          = { s with stats_flow_end_without_start :=
                s.stats_flow_end_without_start + 1 })
    ∧ FlowEnd topmost s track_id flow_id false
        = { s with pending_flow_ids_map :=
              (track_id,
                (lookupA s.pending_flow_ids_map track_id).getD []
                  ++ [flow_id]) :: eraseA s.pending_flow_ids_map track_id }
    ∧ ∀ slice_id,
        ((lookupA s.flow_to_slice_map flow_id).getD 0, slice_id)
          ∈ (ClosePendingEventsOnTrack
              (FlowEnd topmost s track_id flow_id false) track_id
              slice_id).flow_table := by
  refine ⟨?_, ?_, ?_, rfl, ?_⟩
  · intro v hv
    simp [FlowBegin, hopen, hv]
  · intro h
    simp [FlowStep, hopen, h]
  · intro h
    simp [FlowEnd, hopen, h]
  · intro slice_id
    have hpend : lookupA
        (FlowEnd topmost s track_id flow_id false).pending_flow_ids_map
        track_id
        = some ((lookupA s.pending_flow_ids_map track_id).getD []
            ++ [flow_id]) := by
      simp [FlowEnd, lookupA]
    have hR : Rmap (FlowEnd topmost s track_id flow_id false).flow_to_slice_map
        (FlowEnd topmost s track_id flow_id false).flow_to_slice_map :=
      fun x => Or.inl rfl
    obtain ⟨h1, _, _, _⟩ := closeStep_foldl_spec slice_id
      (FlowEnd topmost s track_id flow_id false).flow_to_slice_map
      ((lookupA s.pending_flow_ids_map track_id).getD [] ++ [flow_id])
      (FlowEnd topmost s track_id flow_id false) hR
    simp only [ClosePendingEventsOnTrack, hpend]
    rw [h1]
    refine List.mem_append_right _ ?_
    refine List.mem_map.mpr ⟨flow_id, List.mem_append_right _ (by simp), rfl⟩

/-- Witness for `flow_tracker_bookkeeping`: with slice `5` open on every
track and flow `1` bound to slice `2`, `Begin(0, 1)` only bumps the
duplicate-id stat. -/
theorem flow_tracker_bookkeeping_witness :
    topC 0 = some 5 ∧ lookupA sC7.flow_to_slice_map 1 = some 2
    ∧ FlowBegin topC sC7 0 1
        = { sC7 with stats_flow_duplicate_id :=
              sC7.stats_flow_duplicate_id + 1 } :=
  ⟨rfl, by decide, (flow_tracker_bookkeeping topC sC7 0 1 5 rfl).1 2 (by decide)⟩

/-- **C9**: `GetFlowIdForV1Event` returns the same id on every repeated
call with the same `{source_id, cat, name}` triple; under the tracker's
counter invariant, sequential calls with distinct triples return
distinct ids; ids are drawn from the increasing counter on first sight
of a triple. -/
theorem GetFlowIdForV1Event_spec (s : FlowState) (t₁ t₂ : V1FlowId)
    (hwf : WfV1 s) :
    GetFlowIdForV1Event (GetFlowIdForV1Event s t₁).2 t₁
      = ((GetFlowIdForV1Event s t₁).1, (GetFlowIdForV1Event s t₁).2)
    ∧ (t₁ ≠ t₂ →
        (GetFlowIdForV1Event (GetFlowIdForV1Event s t₁).2 t₂).1
          ≠ (GetFlowIdForV1Event s t₁).1)
    ∧ (lookupA s.v1_flow_id_to_flow_id_map t₁ = none →
        (GetFlowIdForV1Event s t₁).1 = s.v1_id_counter
        ∧ (GetFlowIdForV1Event s t₁).2.v1_id_counter
            = s.v1_id_counter + 1) := by
  obtain ⟨hlt, hinj⟩ := hwf
  cases h₁ : lookupA s.v1_flow_id_to_flow_id_map t₁ with
  | some id₁ =>
      refine ⟨by simp [GetFlowIdForV1Event, h₁], ?_, ?_⟩
      · intro hne
        cases h₂ : lookupA s.v1_flow_id_to_flow_id_map t₂ with
        | some id₂ =>
            simpa [GetFlowIdForV1Event, h₁, h₂] using
              hinj t₂ t₁ id₂ id₁ h₂ h₁ (Ne.symm hne)
        | none =>
            have hl : id₁ < s.v1_id_counter := hlt t₁ id₁ h₁
            simp only [GetFlowIdForV1Event, h₁, h₂]
            omega
      · intro h
        exact Option.noConfusion h
  | none =>
      refine ⟨by simp [GetFlowIdForV1Event, h₁, lookupA], ?_, ?_⟩
      · intro hne
        cases h₂ : lookupA s.v1_flow_id_to_flow_id_map t₂ with
        | some id₂ =>
            have hl : id₂ < s.v1_id_counter := hlt t₂ id₂ h₂
            simp [GetFlowIdForV1Event, h₁, h₂, lookupA, hne]
            omega
        | none =>
            simp [GetFlowIdForV1Event, h₁, h₂, lookupA, hne]
      · intro _
        exact ⟨by simp [GetFlowIdForV1Event, h₁],
          by simp [GetFlowIdForV1Event, h₁]⟩

/-- Witness for `GetFlowIdForV1Event_spec`: on a fresh tracker the
triples `{0,0,0}` and `{1,0,0}` receive distinct flow ids. -/
theorem GetFlowIdForV1Event_spec_witness :
    (GetFlowIdForV1Event
        (GetFlowIdForV1Event ({} : FlowState) ⟨0, 0, 0⟩).2 ⟨1, 0, 0⟩).1
      ≠ (GetFlowIdForV1Event ({} : FlowState) ⟨0, 0, 0⟩).1 :=
  (GetFlowIdForV1Event_spec {} ⟨0, 0, 0⟩ ⟨1, 0, 0⟩
    ⟨fun t id h => by simp [lookupA] at h,
     fun a b i j h => by simp [lookupA] at h⟩).2.1 (by decide)

/-- **C5**: `EnterDictionary(name)` appends `.<name>` (bare `<name>` at
depth 0) to both `flat_key` and `key`; `EnterArray(index)` appends
`[<index>]` to `key` only, leaving `flat_key` unchanged; and `Reset` on
the returned guard truncates both strings back to exactly their
pre-entry lengths, restoring the original key. -/
theorem scoped_key_context_spec (k : Key) (name : List Char) (i : Nat) :
    (EnterDictionary k name).1.flat_key
        = k.flat_key ++ (if k.flat_key = [] then name else '.' :: name)
    ∧ (EnterDictionary k name).1.key
        = k.key ++ (if k.key = [] then name else '.' :: name)
    ∧ (EnterArray k i).1.key = k.key ++ '[' :: (Nat.toDigits 10 i ++ [']'])
    ∧ (EnterArray k i).1.flat_key = k.flat_key
    ∧ (EnterDictionary k name).2.Reset (EnterDictionary k name).1 = k
    ∧ (EnterArray k i).2.Reset (EnterArray k i).1 = k := by
  obtain ⟨fk, ky⟩ := k
  refine ⟨?_, ?_, by simp [EnterArray, enterArrayKey],
    by simp [EnterArray, enterArrayKey], ?_, ?_⟩
  · by_cases h : fk = [] <;>
      simp [EnterDictionary, enterDictionaryKey, appendSep, h]
  · by_cases h : ky = [] <;>
      simp [EnterDictionary, enterDictionaryKey, appendSep, h]
  · by_cases h1 : fk = [] <;> by_cases h2 : ky = [] <;>
      simp [ScopedNestedKeyContext.Reset, EnterDictionary, enterDictionaryKey,
        appendSep, h1, h2, List.take_left]
  · simp [ScopedNestedKeyContext.Reset, EnterArray, enterArrayKey,
      List.take_left]

/-! ### Step lemmas for the decoder -/

theorem ParseMessage_unknown {P : ProtoToArgsParser} {type : List Char}
    {k : Key} {fields : List (Nat × RawValue)} {allowed : List Nat}
    {d : Deleg} (h : lookupA P.pool.messages type = none) :
    ParseMessage P k fields type allowed d = (d, .err unknownTypeMsg) := by
  simp only [ParseMessage, h]

theorem ParseMessage_known {P : ProtoToArgsParser} {type : List Char}
    {desc : List FieldDescriptor} {k : Key}
    {fields : List (Nat × RawValue)} {allowed : List Nat} {d : Deleg}
    (h : lookupA P.pool.messages type = some desc) :
    ParseMessage P k fields type allowed d
      = ParseFields P k desc fields allowed d := by
  simp only [ParseMessage, h]

theorem ParseFields_nil {P : ProtoToArgsParser} {k : Key}
    {desc : List FieldDescriptor} {allowed : List Nat} {d : Deleg} :
    ParseFields P k desc [] allowed d = (d, .ok) := by
  simp only [ParseFields]

theorem ParseFields_skip {allowed : List Nat} {f : Nat × RawValue}
    {P : ProtoToArgsParser} {k : Key} {desc : List FieldDescriptor}
    {rest : List (Nat × RawValue)} {d : Deleg}
    (h : allowed ≠ [] ∧ f.1 ∉ allowed) :
    ParseFields P k desc (f :: rest) allowed d
      = ParseFields P k desc rest allowed d := by
  rw [ParseFields.eq_2, if_pos h]

theorem ParseFields_unresolved {allowed : List Nat} {f : Nat × RawValue}
    {desc : List FieldDescriptor}
    {P : ProtoToArgsParser} {k : Key} {rest : List (Nat × RawValue)}
    {d : Deleg} (h : ¬(allowed ≠ [] ∧ f.1 ∉ allowed))
    (h2 : findField desc f.1 = none) :
    ParseFields P k desc (f :: rest) allowed d
      = ParseFields P k desc rest allowed d := by
  rw [ParseFields.eq_2, if_neg h, h2]

theorem ParseFields_cons_ok {allowed : List Nat} {f : Nat × RawValue}
    {desc : List FieldDescriptor} {fd : FieldDescriptor} {d d' : Deleg}
    {P : ProtoToArgsParser} {k : Key} {rest : List (Nat × RawValue)}
    (h : ¬(allowed ≠ [] ∧ f.1 ∉ allowed))
    (h2 : findField desc f.1 = some fd)
    (h3 : ParseField P k fd f d = (d', .ok)) :
    ParseFields P k desc (f :: rest) allowed d
      = ParseFields P k desc rest allowed d' := by
  rw [ParseFields.eq_2, if_neg h]
  simp only [h2, h3]

theorem ParseFields_cons_err {allowed : List Nat} {f : Nat × RawValue}
    {desc : List FieldDescriptor} {fd : FieldDescriptor} {d d' : Deleg}
    {e : List Char}
    {P : ProtoToArgsParser} {k : Key} {rest : List (Nat × RawValue)}
    (h : ¬(allowed ≠ [] ∧ f.1 ∉ allowed))
    (h2 : findField desc f.1 = some fd)
    (h3 : ParseField P k fd f d = (d', .err e)) :
    ParseFields P k desc (f :: rest) allowed d = (d', .err e) := by
  rw [ParseFields.eq_2, if_neg h]
  simp only [h2, h3]

theorem ParseField_no_override {P : ProtoToArgsParser} {k : Key}
    {fd : FieldDescriptor}
    {f : Nat × RawValue} {d : Deleg}
    (hov : lookupA P.overrides (enterDictionaryKey k fd.name).flat_key
      = none)
    (hrep : fd.repeated = false) :
    ParseField P k fd f d
      = ParseFieldKind P (enterDictionaryKey k fd.name) fd.kind f.2 d := by
  rw [ParseField.eq_def]
  simp only [hrep, Bool.false_eq_true, if_false, MaybeApplyOverride, hov]

theorem ParseField_no_override_repeated {P : ProtoToArgsParser} {k : Key}
    {fd : FieldDescriptor}
    {f : Nat × RawValue} {d : Deleg}
    (hov : lookupA P.overrides (enterDictionaryKey k fd.name).flat_key
      = none)
    (hrep : fd.repeated = true) :
    ParseField P k fd f d
      = ParseFieldKind P
          (enterArrayKey (enterDictionaryKey k fd.name)
            (GetArrayEntryIndex d (enterDictionaryKey k fd.name).flat_key))
          fd.kind f.2
          (IncrementArrayEntryIndex d
            (enterDictionaryKey k fd.name).flat_key) := by
  rw [ParseField.eq_def]
  simp only [hrep, if_true, MaybeApplyOverride, hov]

theorem ParseField_override_handled {P : ProtoToArgsParser} {k : Key}
    {fd : FieldDescriptor} {ov : ParsingOverride} {es : List (Key × Value)}
    {f : Nat × RawValue} {d : Deleg}
    (hov : lookupA P.overrides (enterDictionaryKey k fd.name).flat_key
      = some ov)
    (hres : ov f (fieldDeleg fd k d).array_indices = (es, none)) :
    ParseField P k fd f d
      = ({ fieldDeleg fd k d with
            emissions := (fieldDeleg fd k d).emissions ++ es }, .ok) := by
  rw [ParseField.eq_def]
  cases hrep : fd.repeated
  · simp only [fieldDeleg, hrep, Bool.false_eq_true, if_false] at hres ⊢
    simp only [MaybeApplyOverride, hov, hres]
  · simp only [fieldDeleg, hrep, if_true] at hres ⊢
    simp only [MaybeApplyOverride, hov, hres]

theorem ParseField_override_err {P : ProtoToArgsParser} {k : Key}
    {fd : FieldDescriptor} {ov : ParsingOverride} {es : List (Key × Value)}
    {e : List Char}
    {f : Nat × RawValue} {d : Deleg}
    (hov : lookupA P.overrides (enterDictionaryKey k fd.name).flat_key
      = some ov)
    (hres : ov f (fieldDeleg fd k d).array_indices = (es, some (.err e))) :
    ParseField P k fd f d
      = ({ fieldDeleg fd k d with
            emissions := (fieldDeleg fd k d).emissions ++ es }, .err e) := by
  rw [ParseField.eq_def]
  cases hrep : fd.repeated
  · simp only [fieldDeleg, hrep, Bool.false_eq_true, if_false] at hres ⊢
    simp only [MaybeApplyOverride, hov, hres]
  · simp only [fieldDeleg, hrep, if_true] at hres ⊢
    simp only [MaybeApplyOverride, hov, hres]

theorem ParseField_override_continue {P : ProtoToArgsParser} {k : Key}
    {fd : FieldDescriptor} {ov : ParsingOverride} {es : List (Key × Value)}
    {f : Nat × RawValue} {d : Deleg}
    (hov : lookupA P.overrides (enterDictionaryKey k fd.name).flat_key
      = some ov)
    (hres : ov f (fieldDeleg fd k d).array_indices = (es, some .ok)) :
    ParseField P k fd f d
      = ParseFieldKind P (fieldKey fd k d) fd.kind f.2
          { fieldDeleg fd k d with
            emissions := (fieldDeleg fd k d).emissions ++ es } := by
  rw [ParseField.eq_def]
  cases hrep : fd.repeated
  · simp only [fieldDeleg, fieldKey, hrep, Bool.false_eq_true, if_false]
      at hres ⊢
    simp only [MaybeApplyOverride, hov, hres]
  · simp only [fieldDeleg, fieldKey, hrep, if_true] at hres ⊢
    simp only [MaybeApplyOverride, hov, hres]

theorem ParseField_no_override_ctx {P : ProtoToArgsParser} {k : Key}
    {fd : FieldDescriptor} {f : Nat × RawValue} {d : Deleg}
    (hov : lookupA P.overrides (enterDictionaryKey k fd.name).flat_key
      = none) :
    ParseField P k fd f d
      = ParseFieldKind P (fieldKey fd k d) fd.kind f.2 (fieldDeleg fd k d) := by
  cases hrep : fd.repeated
  · rw [ParseField_no_override hov hrep]
    simp [fieldKey, fieldDeleg, hrep]
  · rw [ParseField_no_override_repeated hov hrep]
    simp [fieldKey, fieldDeleg, hrep]

theorem ParseFieldKind_msg {P : ProtoToArgsParser} {k : Key}
    {ty : List Char} {fs : List (Nat × RawValue)} {d : Deleg} :
    ParseFieldKind P k (.kmsg ty) (.vmsg fs) d
      = ParseMessage P k fs ty [] d := by
  simp only [ParseFieldKind]

theorem ParseFieldKind_simple {P : ProtoToArgsParser} {k : Key}
    {kind : FieldKind} {v : RawValue} {d : Deleg}
    (h : ∀ ty, kind ≠ .kmsg ty) :
    ParseFieldKind P k kind v d = ParseSimpleField P.pool k kind v d := by
  cases kind with
  | kmsg ty => exact absurd rfl (h ty)
  | kint => simp only [ParseFieldKind]
  | kuint => simp only [ParseFieldKind]
  | kbool => simp only [ParseFieldKind]
  | kstring => simp only [ParseFieldKind]
  | kbytes => simp only [ParseFieldKind]
  | kenum ty => simp only [ParseFieldKind]

set_option linter.unusedTactic false in
theorem ParseSimpleField_split (pool : DescriptorPool) (k : Key)
    (kind : FieldKind) (v : RawValue) :
    ∃ es st, ∀ d : Deleg,
      ParseSimpleField pool k kind v d
        = ({ d with emissions := d.emissions ++ es }, st) := by
  cases kind <;> cases v
  case kenum.vint ty n =>
    cases hl : lookupA pool.enums ty with
    | none =>
        exact ⟨[(k, .vInt n)], .ok,
          fun d => by simp [ParseSimpleField, hl, emit]⟩
    | some entries =>
        cases hl2 : lookupA entries n with
        | some nm =>
            exact ⟨[(k, .vString nm)], .ok,
              fun d => by simp [ParseSimpleField, hl, hl2, emit]⟩
        | none =>
            exact ⟨[(k, .vInt n)], .ok,
              fun d => by simp [ParseSimpleField, hl, hl2, emit]⟩
  all_goals
    first
      | exact ⟨_, .ok, fun d => rfl⟩
      | (refine ⟨[], .err malformedMsg, fun d => ?_⟩
         simp [ParseSimpleField]
         done)
      | (refine ⟨[], .err bytesUnsupportedMsg, fun d => ?_⟩
         simp [ParseSimpleField]
         done)

theorem fieldDeleg_emissions (fd : FieldDescriptor) (k : Key) (d : Deleg) :
    (fieldDeleg fd k d).emissions = d.emissions := by
  unfold fieldDeleg
  split <;> rfl

theorem fieldDeleg_ai {d₂ d : Deleg} (fd : FieldDescriptor) (k : Key)
    (h : d₂.array_indices = d.array_indices) :
    (fieldDeleg fd k d₂).array_indices
      = (fieldDeleg fd k d).array_indices := by
  unfold fieldDeleg
  split <;> simp [IncrementArrayEntryIndex, GetArrayEntryIndex, h]

theorem fieldKey_congr {d₂ d : Deleg} (fd : FieldDescriptor) (k : Key)
    (h : d₂.array_indices = d.array_indices) :
    fieldKey fd k d₂ = fieldKey fd k d := by
  unfold fieldKey
  split <;> simp [GetArrayEntryIndex, h]

theorem ParseField_handled_delta {P : ProtoToArgsParser} {k : Key}
    {fd : FieldDescriptor} {ov : ParsingOverride} {es : List (Key × Value)}
    {f : Nat × RawValue} {d : Deleg}
    (hov : lookupA P.overrides (enterDictionaryKey k fd.name).flat_key
      = some ov)
    (hres : ov f (fieldDeleg fd k d).array_indices = (es, none)) :
    DeltaP (ParseField P k fd f) d := by
  intro d₂ h₂
  have hres₂ : ov f (fieldDeleg fd k d₂).array_indices = (es, none) := by
    rw [fieldDeleg_ai fd k h₂]
    exact hres
  rw [ParseField_override_handled hov hres,
    ParseField_override_handled hov hres₂]
  exact ⟨es, by simp [fieldDeleg_emissions],
    by simp [fieldDeleg_emissions, fieldDeleg_ai fd k h₂]⟩

theorem ParseField_err_delta {P : ProtoToArgsParser} {k : Key}
    {fd : FieldDescriptor} {ov : ParsingOverride} {es : List (Key × Value)}
    {e : List Char} {f : Nat × RawValue} {d : Deleg}
    (hov : lookupA P.overrides (enterDictionaryKey k fd.name).flat_key
      = some ov)
    (hres : ov f (fieldDeleg fd k d).array_indices = (es, some (.err e))) :
    DeltaP (ParseField P k fd f) d := by
  intro d₂ h₂
  have hres₂ : ov f (fieldDeleg fd k d₂).array_indices
      = (es, some (.err e)) := by
    rw [fieldDeleg_ai fd k h₂]
    exact hres
  rw [ParseField_override_err hov hres, ParseField_override_err hov hres₂]
  exact ⟨es, by simp [fieldDeleg_emissions],
    by simp [fieldDeleg_emissions, fieldDeleg_ai fd k h₂]⟩

theorem ParseField_continue_delta {P : ProtoToArgsParser} {k : Key}
    {fd : FieldDescriptor} {ov : ParsingOverride} {es : List (Key × Value)}
    {f : Nat × RawValue} {d : Deleg}
    (hov : lookupA P.overrides (enterDictionaryKey k fd.name).flat_key
      = some ov)
    (hres : ov f (fieldDeleg fd k d).array_indices = (es, some .ok))
    (hIH : DeltaP (ParseFieldKind P (fieldKey fd k d) fd.kind f.2)
      { fieldDeleg fd k d with
        emissions := (fieldDeleg fd k d).emissions ++ es }) :
    DeltaP (ParseField P k fd f) d := by
  intro d₂ h₂
  have hres₂ : ov f (fieldDeleg fd k d₂).array_indices = (es, some .ok) := by
    rw [fieldDeleg_ai fd k h₂]
    exact hres
  obtain ⟨t, m1, m2⟩ := hIH
    { fieldDeleg fd k d₂ with
      emissions := (fieldDeleg fd k d₂).emissions ++ es }
    (by simp [fieldDeleg_ai fd k h₂])
  refine ⟨es ++ t, ?_, ?_⟩
  · rw [ParseField_override_continue hov hres, m1]
    simp [fieldDeleg_emissions, List.append_assoc]
  · rw [ParseField_override_continue hov hres₂, fieldKey_congr fd k h₂, m2,
      ParseField_override_continue hov hres]
    simp [fieldDeleg_emissions, List.append_assoc]

theorem ParseField_noov_delta {P : ProtoToArgsParser} {k : Key}
    {fd : FieldDescriptor} {f : Nat × RawValue} {d : Deleg}
    (hov : lookupA P.overrides (enterDictionaryKey k fd.name).flat_key
      = none)
    (hIH : DeltaP (ParseFieldKind P (fieldKey fd k d) fd.kind f.2)
      (fieldDeleg fd k d)) :
    DeltaP (ParseField P k fd f) d := by
  intro d₂ h₂
  obtain ⟨t, m1, m2⟩ := hIH (fieldDeleg fd k d₂) (fieldDeleg_ai fd k h₂)
  refine ⟨t, ?_, ?_⟩
  · rw [ParseField_no_override_ctx hov, m1, fieldDeleg_emissions]
  · simp only [ParseField_no_override_ctx hov]
    rw [fieldKey_congr fd k h₂, m2]
    simp [fieldDeleg_emissions]

theorem kdPair_fst (fd : FieldDescriptor) (k : Key) (d : Deleg) :
    (if _h : fd.repeated = true then
        (enterArrayKey (enterDictionaryKey k fd.name)
          (GetArrayEntryIndex d (enterDictionaryKey k fd.name).flat_key),
          IncrementArrayEntryIndex d (enterDictionaryKey k fd.name).flat_key)
      else (enterDictionaryKey k fd.name, d)).1 = fieldKey fd k d := by
  unfold fieldKey
  split <;> simp

theorem kdPair_snd (fd : FieldDescriptor) (k : Key) (d : Deleg) :
    (if _h : fd.repeated = true then
        (enterArrayKey (enterDictionaryKey k fd.name)
          (GetArrayEntryIndex d (enterDictionaryKey k fd.name).flat_key),
          IncrementArrayEntryIndex d (enterDictionaryKey k fd.name).flat_key)
      else (enterDictionaryKey k fd.name, d)).2 = fieldDeleg fd k d := by
  unfold fieldDeleg
  split <;> simp

theorem MaybeApplyOverride_cases {P : ProtoToArgsParser} {flat : List Char}
    {f : Nat × RawValue} {dX d' : Deleg} {st : Option PStatus}
    (h : MaybeApplyOverride P flat f dX = (d', st)) :
    (lookupA P.overrides flat = none ∧ d' = dX ∧ st = some .ok)
    ∨ ∃ ov es, lookupA P.overrides flat = some ov
        ∧ ov f dX.array_indices = (es, st)
        ∧ d' = { dX with emissions := dX.emissions ++ es } := by
  cases hov : lookupA P.overrides flat with
  | none =>
      left
      simp only [MaybeApplyOverride, hov] at h
      obtain ⟨h1, h2⟩ := Prod.mk.injEq .. ▸ h
      exact ⟨rfl, h1.symm, h2.symm⟩
  | some ov =>
      right
      simp only [MaybeApplyOverride, hov] at h
      obtain ⟨h1, h2⟩ := Prod.mk.injEq .. ▸ h
      refine ⟨ov, (ov f dX.array_indices).1, rfl, ?_, h1.symm⟩
      rw [← h2]

theorem ParseFieldKind_simple_delta {P : ProtoToArgsParser} {k : Key}
    {kind : FieldKind} {v : RawValue} {d : Deleg}
    (h : ∀ ty, kind ≠ .kmsg ty) :
    DeltaP (ParseFieldKind P k kind v) d := by
  intro d₂ h₂
  obtain ⟨es, st, hs⟩ := ParseSimpleField_split P.pool k kind v
  refine ⟨es, ?_, ?_⟩
  · rw [ParseFieldKind_simple h, hs d]
  · rw [ParseFieldKind_simple h, ParseFieldKind_simple h, hs d, hs d₂]
    simp [← h₂]

theorem parse_delta (P : ProtoToArgsParser) :
    (∀ k fields type allowed d,
        DeltaP (ParseMessage P k fields type allowed) d)
    ∧ (∀ k desc fields allowed d,
        DeltaP (ParseFields P k desc fields allowed) d)
    ∧ (∀ k fd f d, DeltaP (ParseField P k fd f) d)
    ∧ (∀ k kind v d, DeltaP (ParseFieldKind P k kind v) d) := by
  refine ParseMessage.mutual_induct P
    (fun k fields type allowed d =>
      DeltaP (ParseMessage P k fields type allowed) d)
    (fun k desc fields allowed d =>
      DeltaP (ParseFields P k desc fields allowed) d)
    (fun k fd f d => DeltaP (ParseField P k fd f) d)
    (fun k kind v d => DeltaP (ParseFieldKind P k kind v) d)
    ?_ ?_ ?_ ?_ ?_ ?_ ?_ ?_ ?_ ?_ ?_ ?_ ?_ ?_ ?_ ?_ ?_ ?_ ?_
  · intro k fields type allowed d h d₂ h₂
    exact ⟨[], by simp [ParseMessage_unknown h],
      by simp [ParseMessage_unknown h, ← h₂]⟩
  · intro k fields type allowed d desc h IH d₂ h₂
    obtain ⟨t, m1, m2⟩ := IH d₂ h₂
    exact ⟨t, by simpa only [ParseMessage_known h] using m1,
      by simpa only [ParseMessage_known h] using m2⟩
  · intro k desc allowed d d₂ h₂
    exact ⟨[], by simp [ParseFields_nil], by simp [ParseFields_nil, ← h₂]⟩
  · intro k desc f rest allowed d h IH d₂ h₂
    obtain ⟨t, m1, m2⟩ := IH d₂ h₂
    exact ⟨t, by simpa only [ParseFields_skip h] using m1,
      by simpa only [ParseFields_skip h] using m2⟩
  · intro k desc f rest allowed d hcond hff IH d₂ h₂
    obtain ⟨t, m1, m2⟩ := IH d₂ h₂
    exact ⟨t, by simpa only [ParseFields_unresolved hcond hff] using m1,
      by simpa only [ParseFields_unresolved hcond hff] using m2⟩
  · intro k desc f rest allowed d hcond fd hff d' heq IH3 IH2 d₂ h₂
    obtain ⟨t₁, f1, f2⟩ := IH3 d₂ h₂
    simp only [heq] at f1 f2
    obtain ⟨t₂, g1, g2⟩ := IH2
      ({ emissions := d₂.emissions ++ t₁,
         array_indices := d'.array_indices } : Deleg) rfl
    refine ⟨t₁ ++ t₂, ?_, ?_⟩
    · simp only [ParseFields_cons_ok hcond hff heq]
      rw [g1, f1, List.append_assoc]
    · have heq₂ : ParseField P k fd f d₂
          = ({ emissions := d₂.emissions ++ t₁,
               array_indices := d'.array_indices }, .ok) := f2
      simp only [ParseFields_cons_ok hcond hff heq,
        ParseFields_cons_ok hcond hff heq₂]
      rw [g2]
      simp [List.append_assoc]
  · intro k desc f rest allowed d hcond fd hff d' e heq IH3 d₂ h₂
    obtain ⟨t₁, f1, f2⟩ := IH3 d₂ h₂
    simp only [heq] at f1 f2
    refine ⟨t₁, ?_, ?_⟩
    · simp only [ParseFields_cons_err hcond hff heq]
      exact f1
    · have heq₂ : ParseField P k fd f d₂
          = ({ emissions := d₂.emissions ++ t₁,
               array_indices := d'.array_indices }, .err e) := f2
      simp only [ParseFields_cons_err hcond hff heq,
        ParseFields_cons_err hcond hff heq₂]
  · intro k fd f d k1 kd d' hMAO
    unfold k1 kd at hMAO
    rcases MaybeApplyOverride_cases hMAO with ⟨_, _, hbad⟩ | ⟨ov, es, hov, hres, _⟩
    · cases hbad
    · rw [kdPair_snd] at hres
      exact ParseField_handled_delta hov hres
  · intro k fd f d k1 kd d' e hMAO
    unfold k1 kd at hMAO
    rcases MaybeApplyOverride_cases hMAO with ⟨_, _, hbad⟩ | ⟨ov, es, hov, hres, _⟩
    · cases hbad
    · rw [kdPair_snd] at hres
      exact ParseField_err_delta hov hres
  · intro k fd f d k1 kd d' hMAO IH4
    unfold k1 kd at hMAO
    unfold kd at IH4
    rcases MaybeApplyOverride_cases hMAO with ⟨hov, hd', _⟩ | ⟨ov, es, hov, hres, hd'⟩
    · rw [kdPair_fst] at IH4
      rw [hd', kdPair_snd] at IH4
      exact ParseField_noov_delta hov IH4
    · rw [kdPair_fst] at IH4
      rw [hd', kdPair_snd] at IH4
      rw [kdPair_snd] at hres
      exact ParseField_continue_delta hov hres IH4
  · intro k d ty fs IH1 d₂ h₂
    obtain ⟨t, m1, m2⟩ := IH1 d₂ h₂
    exact ⟨t, by simpa only [ParseFieldKind_msg] using m1,
      by simpa only [ParseFieldKind_msg] using m2⟩
  · intro k d ty n d₂ h₂
    exact ⟨[], by simp [ParseFieldKind], by simp [ParseFieldKind, ← h₂]⟩
  · intro k d ty s d₂ h₂
    exact ⟨[], by simp [ParseFieldKind], by simp [ParseFieldKind, ← h₂]⟩
  all_goals
    first
      | (intro k d v
         exact ParseFieldKind_simple_delta (fun ty h => by cases h))
      | (intro k d ty v
         exact ParseFieldKind_simple_delta (fun ty2 h => by cases h))

theorem ParseFields_emissions_extend (P : ProtoToArgsParser) (k : Key)
    (desc : List FieldDescriptor) (fields : List (Nat × RawValue))
    (allowed : List Nat) (d : Deleg) :
    ∃ t, (ParseFields P k desc fields allowed d).1.emissions
      = d.emissions ++ t :=
  let ⟨t, m1, _⟩ := (parse_delta P).2.1 k desc fields allowed d d rfl
  ⟨t, m1⟩

theorem ParseField_emissions_extend (P : ProtoToArgsParser) (k : Key)
    (fd : FieldDescriptor) (f : Nat × RawValue) (d : Deleg) :
    ∃ t, (ParseField P k fd f d).1.emissions = d.emissions ++ t :=
  let ⟨t, m1, _⟩ := (parse_delta P).2.2.1 k fd f d d rfl
  ⟨t, m1⟩

/-- **C8**: `ParseMessage` is a deterministic function of its inputs and
the sink's array-index state: two runs over the same bytes, type name,
allow-list and key prefix, started from delegate states with equal
array-index tables, append the same key/value sequence to their
emissions, end in equal array-index tables, and return the same status.
In particular, parsing the same bytes twice against the same fresh sink
state (array-index state reset between runs) produces identical
key/value sequences. -/
theorem ParseMessage_deterministic (P : ProtoToArgsParser) (k : Key)
    (fields : List (Nat × RawValue)) (type : List Char)
    (allowed : List Nat) (d₁ d₂ : Deleg)
    (h : d₂.array_indices = d₁.array_indices) :
    ∃ t, (ParseMessage P k fields type allowed d₁).1.emissions
        = d₁.emissions ++ t
    ∧ (ParseMessage P k fields type allowed d₂).1.emissions
        = d₂.emissions ++ t
    ∧ (ParseMessage P k fields type allowed d₂).2
        = (ParseMessage P k fields type allowed d₁).2
    ∧ (ParseMessage P k fields type allowed d₂).1.array_indices
        = (ParseMessage P k fields type allowed d₁).1.array_indices := by
  obtain ⟨t, m1, m2⟩ := (parse_delta P).1 k fields type allowed d₁ d₂ h
  exact ⟨t, m1, by rw [m2], by rw [m2], by rw [m2]⟩

/-- Witness for `ParseMessage_deterministic`: two runs over the same
one-field message from the same fresh sink state. -/
theorem ParseMessage_deterministic_witness :
    ∃ t,
      (ParseMessage parserAB ⟨[], []⟩ [(1, .vint 5)] ['N'] []
          ⟨[], []⟩).1.emissions
        = (⟨[], []⟩ : Deleg).emissions ++ t
      ∧ (ParseMessage parserAB ⟨[], []⟩ [(1, .vint 5)] ['N'] []
          ⟨[], []⟩).1.emissions
        = (⟨[], []⟩ : Deleg).emissions ++ t
      ∧ (ParseMessage parserAB ⟨[], []⟩ [(1, .vint 5)] ['N'] [] ⟨[], []⟩).2
        = (ParseMessage parserAB ⟨[], []⟩ [(1, .vint 5)] ['N'] [] ⟨[], []⟩).2
      ∧ (ParseMessage parserAB ⟨[], []⟩ [(1, .vint 5)] ['N'] []
          ⟨[], []⟩).1.array_indices
        = (ParseMessage parserAB ⟨[], []⟩ [(1, .vint 5)] ['N'] []
          ⟨[], []⟩).1.array_indices :=
  ParseMessage_deterministic parserAB ⟨[], []⟩ [(1, .vint 5)] ['N'] []
    ⟨[], []⟩ ⟨[], []⟩ rfl

theorem ParseFields_err_split {P : ProtoToArgsParser} {k : Key}
    {desc : List FieldDescriptor} :
    ∀ {fields : List (Nat × RawValue)} {allowed : List Nat} {d d' : Deleg}
      {e : List Char},
      ParseFields P k desc fields allowed d = (d', .err e) →
      ∃ pre f post fd dpre,
        fields = pre ++ f :: post
        ∧ ParseFields P k desc pre allowed d = (dpre, .ok)
        ∧ ¬(allowed ≠ [] ∧ f.1 ∉ allowed)
        ∧ findField desc f.1 = some fd
        ∧ ParseField P k fd f dpre = (d', .err e)
        ∧ ∀ post', ParseFields P k desc (pre ++ f :: post') allowed d
            = (d', .err e) := by
  intro fields
  induction fields with
  | nil =>
      intro allowed d d' e h
      rw [ParseFields_nil] at h
      simp at h
  | cons g rest ih =>
      intro allowed d d' e h
      by_cases hskip : allowed ≠ [] ∧ g.1 ∉ allowed
      · rw [ParseFields_skip hskip] at h
        obtain ⟨pre, f, post, fd, dpre, hsplit, hpre, hcond, hfd, hfail,
          hpost⟩ := ih h
        refine ⟨g :: pre, f, post, fd, dpre, by simp [hsplit], ?_, hcond, hfd,
          hfail, ?_⟩
        · rw [ParseFields_skip hskip]
          exact hpre
        · intro post'
          rw [List.cons_append, ParseFields_skip hskip]
          exact hpost post'
      · cases hfd0 : findField desc g.1 with
        | none =>
            rw [ParseFields_unresolved hskip hfd0] at h
            obtain ⟨pre, f, post, fd, dpre, hsplit, hpre, hcond, hfd, hfail,
              hpost⟩ := ih h
            refine ⟨g :: pre, f, post, fd, dpre, by simp [hsplit], ?_, hcond,
              hfd, hfail, ?_⟩
            · rw [ParseFields_unresolved hskip hfd0]
              exact hpre
            · intro post'
              rw [List.cons_append, ParseFields_unresolved hskip hfd0]
              exact hpost post'
        | some fdg =>
            rcases hpf : ParseField P k fdg g d with ⟨d₀, st⟩
            cases st with
            | ok =>
                rw [ParseFields_cons_ok hskip hfd0 hpf] at h
                obtain ⟨pre, f, post, fd, dpre, hsplit, hpre, hcond, hfd,
                  hfail, hpost⟩ := ih h
                refine ⟨g :: pre, f, post, fd, dpre, by simp [hsplit], ?_,
                  hcond, hfd, hfail, ?_⟩
                · rw [ParseFields_cons_ok hskip hfd0 hpf]
                  exact hpre
                · intro post'
                  rw [List.cons_append, ParseFields_cons_ok hskip hfd0 hpf]
                  exact hpost post'
            | err e₀ =>
                rw [ParseFields_cons_err hskip hfd0 hpf] at h
                injection h with h1 h2
                injection h2 with h3
                subst h1 h3
                refine ⟨[], g, rest, fdg, d, rfl, ParseFields_nil, hskip,
                  hfd0, hpf, ?_⟩
                intro post'
                rw [List.nil_append, ParseFields_cons_err hskip hfd0 hpf]

/-- **C1**: when `ParseMessage` fails while decoding a field, it returns
the first failure encountered: the present fields split as
`pre ++ f :: post` where every field of `pre` was processed
successfully, `f` is allowed and schema-resolvable and its decode
produced exactly the returned failure; all emissions made before the
failing field are preserved in the final sink state (nothing is
retracted), and the sibling fields after the failure are never
attempted — the result is the same for every `post`. -/
theorem ParseMessage_first_failure {P : ProtoToArgsParser} {k : Key}
    {fields : List (Nat × RawValue)} {type : List Char}
    {allowed : List Nat} {d d' : Deleg} {e : List Char}
    {desc : List FieldDescriptor}
    (hdesc : lookupA P.pool.messages type = some desc)
    (herr : ParseMessage P k fields type allowed d = (d', .err e)) :
    ∃ pre f post fd dpre,
      fields = pre ++ f :: post
      ∧ ParseFields P k desc pre allowed d = (dpre, .ok)
      ∧ ¬(allowed ≠ [] ∧ f.1 ∉ allowed)
      ∧ findField desc f.1 = some fd
      ∧ ParseField P k fd f dpre = (d', .err e)
      ∧ (∃ t, dpre.emissions = d.emissions ++ t)
      ∧ (∃ t, d'.emissions = dpre.emissions ++ t)
      ∧ ∀ post', ParseMessage P k (pre ++ f :: post') type allowed d
          = (d', .err e) := by
  rw [ParseMessage_known hdesc] at herr
  obtain ⟨pre, f, post, fd, dpre, hsplit, hpre, hcond, hfd, hfail, hpost⟩ :=
    ParseFields_err_split herr
  refine ⟨pre, f, post, fd, dpre, hsplit, hpre, hcond, hfd, hfail, ?_, ?_, ?_⟩
  · obtain ⟨t, m⟩ := ParseFields_emissions_extend P k desc pre allowed d
    simp only [hpre] at m
    exact ⟨t, m⟩
  · obtain ⟨t, m⟩ := ParseField_emissions_extend P k fd f dpre
    simp only [hfail] at m
    exact ⟨t, m⟩
  · intro post'
    rw [ParseMessage_known hdesc]
    exact hpost post'

/-- Witness for `ParseMessage_first_failure`: a message with scalar `a`,
bytes `b`, scalar `c` fails on `b` after emitting `a`. -/
theorem ParseMessage_first_failure_witness :
    ∃ pre f post fd dpre,
      ([(1, RawValue.vint 7), (2, RawValue.vstr []), (3, RawValue.vint 9)]
          : List (Nat × RawValue)) = pre ++ f :: post
      ∧ ParseFields parserABC ⟨[], []⟩ descABC pre [] ⟨[], []⟩ = (dpre, .ok)
      ∧ ¬(([] : List Nat) ≠ [] ∧ f.1 ∉ ([] : List Nat))
      ∧ findField descABC f.1 = some fd
      ∧ ParseField parserABC ⟨[], []⟩ fd f dpre
          = (⟨[(⟨['a'], ['a']⟩, .vInt 7)], []⟩, .err bytesUnsupportedMsg)
      ∧ (∃ t, dpre.emissions = (⟨[], []⟩ : Deleg).emissions ++ t)
      ∧ (∃ t, (⟨[(⟨['a'], ['a']⟩, .vInt 7)], []⟩ : Deleg).emissions
            = dpre.emissions ++ t)
      ∧ ∀ post',
          ParseMessage parserABC ⟨[], []⟩ (pre ++ f :: post') ['M'] []
            ⟨[], []⟩
          = (⟨[(⟨['a'], ['a']⟩, .vInt 7)], []⟩, .err bytesUnsupportedMsg) :=
  ParseMessage_first_failure (by decide)
    (by simp [ParseMessage, ParseFields, ParseField, ParseFieldKind,
      ParseSimpleField, MaybeApplyOverride, parserABC, poolABC, descABC,
      lookupA, findField, enterDictionaryKey, appendSep, emit,
      GetArrayEntryIndex, IncrementArrayEntryIndex])

/-- **C2**: a bytes-typed field is unsupported: default decoding of any
field whose schema kind is bytes fails with the descriptive message,
whatever the payload; concretely, a message with well-formed scalar `a`,
then bytes `b`, then well-formed scalar `c` reports the failure, the
sink has received exactly the one emission for `a`, and `c` is never
emitted. -/
theorem bytes_field_unsupported {P : ProtoToArgsParser} {k : Key}
    {fd : FieldDescriptor} {f : Nat × RawValue} {d : Deleg}
    (hkind : fd.kind = .kbytes)
    (hov : lookupA P.overrides (enterDictionaryKey k fd.name).flat_key
      = none)
    (hrep : fd.repeated = false) :
    ParseField P k fd f d = (d, .err bytesUnsupportedMsg)
    ∧ ParseMessage parserABC ⟨[], []⟩
        [(1, .vint 7), (2, .vstr []), (3, .vint 9)] ['M'] [] ⟨[], []⟩
      = (⟨[(⟨['a'], ['a']⟩, .vInt 7)], []⟩, .err bytesUnsupportedMsg) := by
  constructor
  · rw [ParseField_no_override hov hrep, hkind,
      ParseFieldKind_simple (fun ty h => by cases h)]
    rcases f with ⟨n, v⟩
    cases v <;> simp [ParseSimpleField]
  · simp [ParseMessage, ParseFields, ParseField, ParseFieldKind,
      ParseSimpleField, MaybeApplyOverride, parserABC, poolABC, descABC,
      lookupA, findField, enterDictionaryKey, appendSep, emit,
      GetArrayEntryIndex, IncrementArrayEntryIndex]

/-- Witness for `bytes_field_unsupported`: the bytes field `b` of the
fixture schema fails on its own. -/
theorem bytes_field_unsupported_witness :
    ParseField parserABC ⟨[], []⟩ ⟨2, ['b'], .kbytes, false⟩ (2, .vstr [])
        ⟨[], []⟩
      = (⟨[], []⟩, .err bytesUnsupportedMsg) :=
  (@bytes_field_unsupported parserABC ⟨[], []⟩ ⟨2, ['b'], .kbytes, false⟩
    (2, .vstr []) ⟨[], []⟩ rfl rfl rfl).1

/-- **C3**: for a field whose flat dotted path (array indices excluded)
has a registered override, the interceptor runs before any default
decoding; if it reports "handled" (`none`) the decoder performs no
default handling at all — no value emission and no recursion — and the
field finishes with success; if it returns an OK status default decoding
of the field continues from the post-override state; if it returns a
failure status the failure short-circuits: the field returns it and the
message walker stops without attempting the remaining sibling fields. -/
theorem parsing_override_contract {P : ProtoToArgsParser} {k : Key}
    {fd : FieldDescriptor} {ov : ParsingOverride} {es : List (Key × Value)}
    {f : Nat × RawValue} {d : Deleg}
    (hov : lookupA P.overrides (enterDictionaryKey k fd.name).flat_key
      = some ov) :
    (ov f (fieldDeleg fd k d).array_indices = (es, none) →
      ParseField P k fd f d
        = ({ fieldDeleg fd k d with
             emissions := (fieldDeleg fd k d).emissions ++ es }, .ok))
    ∧ (ov f (fieldDeleg fd k d).array_indices = (es, some .ok) →
      ParseField P k fd f d
        = ParseFieldKind P (fieldKey fd k d) fd.kind f.2
            { fieldDeleg fd k d with
              emissions := (fieldDeleg fd k d).emissions ++ es })
    ∧ (∀ e, ov f (fieldDeleg fd k d).array_indices = (es, some (.err e)) →
      ParseField P k fd f d
        = ({ fieldDeleg fd k d with
             emissions := (fieldDeleg fd k d).emissions ++ es }, .err e))
    ∧ ∀ e rest desc allowed,
        ov f (fieldDeleg fd k d).array_indices = (es, some (.err e)) →
        ¬(allowed ≠ [] ∧ f.1 ∉ allowed) →
        findField desc f.1 = some fd →
        ParseFields P k desc (f :: rest) allowed d
          = ({ fieldDeleg fd k d with
               emissions := (fieldDeleg fd k d).emissions ++ es }, .err e) :=
  ⟨fun h => ParseField_override_handled hov h,
   fun h => ParseField_override_continue hov h,
   fun _ h => ParseField_override_err hov h,
   fun _ _ _ _ h hcond hfd =>
     ParseFields_cons_err hcond hfd (ParseField_override_err hov h)⟩

/-- Witness for `parsing_override_contract`: the fixture override on
path `a` handles field `a` entirely, so only its synthetic emission
appears and default decoding is skipped. -/
theorem parsing_override_contract_witness :
    ovHandled (1, .vint 7)
        (fieldDeleg ⟨1, ['a'], .kint, false⟩ ⟨[], []⟩ ⟨[], []⟩).array_indices
      = ([(⟨['o'], ['o']⟩, .vInt 42)], none)
    ∧ ParseField parserOv ⟨[], []⟩ ⟨1, ['a'], .kint, false⟩ (1, .vint 7)
        ⟨[], []⟩
      = ({ fieldDeleg ⟨1, ['a'], .kint, false⟩ ⟨[], []⟩ ⟨[], []⟩ with
           emissions :=
             (fieldDeleg ⟨1, ['a'], .kint, false⟩ ⟨[], []⟩
                 ⟨[], []⟩).emissions
               ++ [(⟨['o'], ['o']⟩, .vInt 42)] }, .ok) :=
  ⟨rfl,
    (@parsing_override_contract parserOv ⟨[], []⟩ ⟨1, ['a'], .kint, false⟩
      ovHandled [(⟨['o'], ['o']⟩, .vInt 42)] (1, .vint 7) ⟨[], []⟩
      rfl).1 rfl⟩

/-- **C4**: a present field whose number is outside a non-empty
allow-list is skipped silently — the walk continues exactly as if the
field were absent, with no failure and no emission for it; in
particular, an allow-list holding only field 1 of a two-field message
lets only field 1's value reach the sink, with success. -/
theorem allow_list_skips {P : ProtoToArgsParser} {k : Key}
    {desc : List FieldDescriptor} {f : Nat × RawValue}
    {rest : List (Nat × RawValue)} {allowed : List Nat} {d : Deleg}
    (hne : allowed ≠ []) (hnot : f.1 ∉ allowed) :
    ParseFields P k desc (f :: rest) allowed d
      = ParseFields P k desc rest allowed d
    ∧ ParseMessage parserAB ⟨[], []⟩ [(1, .vint 5), (2, .vint 6)] ['N'] [1]
        ⟨[], []⟩
      = (⟨[(⟨['a'], ['a']⟩, .vInt 5)], []⟩, .ok) := by
  constructor
  · exact ParseFields_skip ⟨hne, hnot⟩
  · simp [ParseMessage, ParseFields, ParseField, ParseFieldKind,
      ParseSimpleField, MaybeApplyOverride, parserAB, poolAB, descAB,
      lookupA, findField, enterDictionaryKey, appendSep, emit,
      GetArrayEntryIndex, IncrementArrayEntryIndex]

/-- Witness for `allow_list_skips`: field 2 is skipped under the
allow-list `[1]`. -/
theorem allow_list_skips_witness :
    ParseFields parserAB ⟨[], []⟩ descAB [(2, .vint 6)] [1] ⟨[], []⟩
      = ParseFields parserAB ⟨[], []⟩ descAB [] [1] ⟨[], []⟩ :=
  (@allow_list_skips parserAB ⟨[], []⟩ descAB (2, .vint 6) [] [1] ⟨[], []⟩
    (by decide) (by decide)).1

theorem repEmissions_flat (k : Key) (name : List Char) :
    ∀ (i : Nat) (vs : List Int),
      ∀ p ∈ repEmissions k name i vs,
        p.1.flat_key = appendSep k.flat_key name := by
  intro i vs
  induction vs generalizing i with
  | nil => intro p hp; cases hp
  | cons v vs ih =>
      intro p hp
      rcases List.mem_cons.mp hp with rfl | hp'
      · rfl
      · exact ih (i + 1) p hp'

theorem ParseFields_repeated_go {P : ProtoToArgsParser} {k : Key}
    {desc : List FieldDescriptor} {num : Nat} {name : List Char}
    {allowed : List Nat}
    (hff : findField desc num = some ⟨num, name, .kint, true⟩)
    (hov : lookupA P.overrides (appendSep k.flat_key name) = none)
    (hal : ¬(allowed ≠ [] ∧ num ∉ allowed)) :
    ∀ (vs : List Int) (i : Nat) (d : Deleg),
      GetArrayEntryIndex d (appendSep k.flat_key name) = i →
      ∃ dfin,
        ParseFields P k desc (vs.map fun v => (num, RawValue.vint v))
            allowed d
          = (dfin, .ok)
        ∧ dfin.emissions = d.emissions ++ repEmissions k name i vs
        ∧ GetArrayEntryIndex dfin (appendSep k.flat_key name)
            = i + vs.length := by
  intro vs
  induction vs with
  | nil =>
      intro i d hidx
      exact ⟨d, ParseFields_nil, by simp [repEmissions], by simp [hidx]⟩
  | cons v vs ih =>
      intro i d hidx
      have hpf : ParseField P k ⟨num, name, .kint, true⟩ (num, .vint v) d
          = (⟨d.emissions
                ++ [(enterArrayKey (enterDictionaryKey k name) i, .vInt v)],
              (appendSep k.flat_key name, i + 1) :: d.array_indices⟩,
             .ok) := by
        rw [ParseField_no_override_repeated hov rfl,
          ParseFieldKind_simple (fun ty h => by cases h)]
        simp only [ParseSimpleField, emit, IncrementArrayEntryIndex,
          enterDictionaryKey, hidx]
      have hidx' : GetArrayEntryIndex
          (⟨d.emissions
              ++ [(enterArrayKey (enterDictionaryKey k name) i, .vInt v)],
            (appendSep k.flat_key name, i + 1) :: d.array_indices⟩ : Deleg)
          (appendSep k.flat_key name) = i + 1 := by
        simp [GetArrayEntryIndex, lookupA]
      obtain ⟨dfin, h1, h2, h3⟩ := ih (i + 1) _ hidx'
      refine ⟨dfin, ?_, ?_, ?_⟩
      · rw [List.map_cons, ParseFields_cons_ok hal hff hpf]
        exact h1
      · rw [h2]
        simp [repEmissions, List.append_assoc]
      · rw [h3]
        simp only [List.length_cons]
        omega

/-- **C6**: a repeated scalar field `name` with values `vs` decodes to
one emission per value, with the element keys carrying the consecutive
array indices `i, i + 1, …, i + vs.length - 1` starting at the index the
sink last returned for the field's flat key (`0` on a fresh sink), every
emission sharing the flat key `<prefix.>name`; the sink's next index for
that flat key ends at `i + vs.length`, so a further `ParseMessage` call
appending to the same logical array continues numbering instead of
restarting. -/
theorem repeated_field_indexing {P : ProtoToArgsParser} {k : Key}
    {desc : List FieldDescriptor} {num : Nat} {name : List Char}
    {type : List Char} {allowed : List Nat}
    (hdesc : lookupA P.pool.messages type = some desc)
    (hff : findField desc num = some ⟨num, name, .kint, true⟩)
    (hov : lookupA P.overrides (appendSep k.flat_key name) = none)
    (hal : ¬(allowed ≠ [] ∧ num ∉ allowed)) :
    ∀ (vs : List Int) (i : Nat) (d : Deleg),
      GetArrayEntryIndex d (appendSep k.flat_key name) = i →
      ∃ dfin,
        ParseMessage P k (vs.map fun v => (num, RawValue.vint v)) type
            allowed d
          = (dfin, .ok)
        ∧ dfin.emissions = d.emissions ++ repEmissions k name i vs
        ∧ GetArrayEntryIndex dfin (appendSep k.flat_key name)
            = i + vs.length
        ∧ ∀ p ∈ repEmissions k name i vs,
            p.1.flat_key = appendSep k.flat_key name := by
  intro vs i d hidx
  obtain ⟨dfin, h1, h2, h3⟩ := ParseFields_repeated_go hff hov hal vs i d hidx
  exact ⟨dfin, by rw [ParseMessage_known hdesc]; exact h1, h2, h3,
    repEmissions_flat k name i vs⟩

/-- Witness for `repeated_field_indexing`: values `[10, 20, 30]` of the
repeated field `x` on a fresh sink give keys `x[0]`, `x[1]`, `x[2]`. -/
theorem repeated_field_indexing_witness :
    ∃ dfin,
      ParseMessage parserX ⟨[], []⟩
          (([10, 20, 30] : List Int).map fun v => (1, RawValue.vint v))
          ['R'] [] ⟨[], []⟩
        = (dfin, .ok)
      ∧ dfin.emissions
          = (⟨[], []⟩ : Deleg).emissions
            ++ repEmissions ⟨[], []⟩ ['x'] 0 [10, 20, 30]
      ∧ GetArrayEntryIndex dfin
            (appendSep (⟨[], []⟩ : Key).flat_key ['x'])
          = 0 + ([10, 20, 30] : List Int).length
      ∧ ∀ p ∈ repEmissions ⟨[], []⟩ ['x'] 0 [10, 20, 30],
          p.1.flat_key = appendSep (⟨[], []⟩ : Key).flat_key ['x'] :=
  @repeated_field_indexing parserX ⟨[], []⟩ descX 1 ['x'] ['R'] []
    (by decide) (by decide) rfl (by decide) [10, 20, 30] 0 ⟨[], []⟩
    (by decide)

end Spec2Proof
